import Mathlib

/-!
Shallow embedding of the FileSplitter Vencord plugin (src/FileSplitter.tsx):
the chunk data model, the ChunkManager assembly cache, the split loop of
handleFileSplit, the merge routine handleFileMerge, the receive path
onMessageCreate, and the sequential upload loop.  Byte payloads are modelled
as List Nat; a chunk's attachment URL is modelled by the byte sequence it
resolves to.  Storage keys are the original file names, as in the source.
-/

namespace FileSplitter

/-- CHUNK_TIMEOUT = 5 * 60 * 1000: the five-minute expiry window for
incomplete files (src/FileSplitter.tsx line 9). -/
def CHUNK_TIMEOUT : Nat := 5 * 60 * 1000

/-- StoredFileChunk: the FileChunkMetadata fields (index, total, originalName,
originalSize, timestamp) together with the payload its url resolves to
(src/FileSplitter.tsx lines 16-31). -/
structure StoredFileChunk where
  index : Nat
  total : Nat
  originalName : String
  originalSize : Nat
  timestamp : Nat
  data : List Nat
deriving DecidableEq

/-- One value of the ChunkStorage map: the chunks received so far for one
originalName and the time of the last accepted insertion
(src/FileSplitter.tsx lines 34-39). -/
structure AssemblyEntry where
  chunks : List StoredFileChunk
  lastUpdated : Nat
deriving DecidableEq

/-- ChunkManager.storage: a map keyed by originalName
(src/FileSplitter.tsx line 56). -/
def ChunkStorage := String → Option AssemblyEntry

/-- The initial, empty storage. -/
def emptyStorage : ChunkStorage := fun _ => none

/-- ChunkManager.addChunk (src/FileSplitter.tsx lines 62-76): create the entry
for the chunk's originalName if absent; then, unless some stored chunk already
carries the same index, append the chunk and refresh lastUpdated. -/
def addChunk (s : ChunkStorage) (chunk : StoredFileChunk) (now : Nat) :
    ChunkStorage :=
  fun k =>
    if k = chunk.originalName then
      let entry := (s chunk.originalName).getD { chunks := [], lastUpdated := now }
      if entry.chunks.any (fun c => c.index == chunk.index) then
        some entry
      else
        some { chunks := entry.chunks ++ [chunk], lastUpdated := now }
    else s k

/-- ChunkManager.getChunks (src/FileSplitter.tsx lines 83-85): the chunks
stored for a file name, when an entry exists. -/
def getChunks (s : ChunkStorage) (fileName : String) :
    Option (List StoredFileChunk) :=
  (s fileName).map (fun e => e.chunks)

/-- ChunkManager.cleanOldChunks (src/FileSplitter.tsx lines 91-99): delete
every entry whose lastUpdated lies more than CHUNK_TIMEOUT before now. -/
def cleanOldChunks (s : ChunkStorage) (now : Nat) : ChunkStorage :=
  fun k =>
    match s k with
    | some e => if now - e.lastUpdated > CHUNK_TIMEOUT then none else some e
    | none => none

/-- The completeness test applied by onMessageCreate after storing a chunk
(src/FileSplitter.tsx line 311): an entry exists and its stored count equals
the given total. -/
def isComplete (s : ChunkStorage) (fileName : String) (total : Nat) : Bool :=
  match getChunks s fileName with
  | some chunks => chunks.length == total
  | none => false

/-- The file handed to handleFileSplit: its name and its bytes. -/
structure InputFile where
  name : String
  bytes : List Nat

/-- totalChunks = Math.ceil(file.size / CHUNK_SIZE)
(src/FileSplitter.tsx line 179), for a positive chunk size. -/
def totalChunks (size chunkSize : Nat) : Nat :=
  (size + chunkSize - 1) / chunkSize

/-- file.slice(start, stop): the bytes in the half-open range from start
to stop (src/FileSplitter.tsx line 186). -/
def sliceBytes (bytes : List Nat) (start stop : Nat) : List Nat :=
  (bytes.drop start).take (stop - start)

/-- The chunk built in iteration i of the split loop of handleFileSplit
(src/FileSplitter.tsx lines 181-203): metadata plus the slice from
i*chunkSize to min(i*chunkSize + chunkSize, file.size). -/
def makeChunk (file : InputFile) (chunkSize i now : Nat) : StoredFileChunk :=
  { index := i
    total := totalChunks file.bytes.length chunkSize
    originalName := file.name
    originalSize := file.bytes.length
    timestamp := now
    data := sliceBytes file.bytes (i * chunkSize)
      (min (i * chunkSize + chunkSize) file.bytes.length) }

/-- The full sequence of chunks produced by the split loop of
handleFileSplit. -/
def splitChunks (file : InputFile) (chunkSize now : Nat) :
    List StoredFileChunk :=
  (List.range (totalChunks file.bytes.length chunkSize)).map
    (fun i => makeChunk file chunkSize i now)

/-- The comparator of handleFileMerge, chunks.sort((a, b) => a.index - b.index)
(src/FileSplitter.tsx line 128): ascending chunk index. -/
def chunkLe (a b : StoredFileChunk) : Bool :=
  decide (a.index ≤ b.index)

/-- The object produced by a merge: the reconstructed file. -/
structure MergedFile where
  name : String
  bytes : List Nat
deriving DecidableEq

/-- handleFileMerge (src/FileSplitter.tsx lines 125-160): sort the chunks by
index, concatenate their payloads in that order, and name the result after the
first sorted chunk.  The none case models the thrown error on an empty chunk
array (chunks[0] is undefined); payload resolution itself is modelled as
always succeeding. -/
def handleFileMerge (chunks : List StoredFileChunk) : Option MergedFile :=
  match chunks.mergeSort chunkLe with
  | [] => none
  | c :: rest =>
      some { name := c.originalName
             bytes := ((c :: rest).map (fun d => d.data)).flatten }

/-- Receive-side state: the ChunkManager storage plus the list of chunk sets
handed to handleFileMerge so far, in call order. -/
structure ReceiveState where
  storage : ChunkStorage
  merges : List (List StoredFileChunk)

/-- The state before any message has been received. -/
def initialReceiveState : ReceiveState :=
  { storage := emptyStorage, merges := [] }

/-- onMessageCreate (src/FileSplitter.tsx lines 290-324), after the message
has passed isValidChunk and its attachment url has been taken: add the chunk
to the ChunkManager, then, if the stored count equals the chunk's total, hand
the stored chunks to handleFileMerge.  No entry is removed on this path. -/
def onMessageCreate (st : ReceiveState) (chunk : StoredFileChunk) (now : Nat) :
    ReceiveState :=
  let storage := addChunk st.storage chunk now
  match getChunks storage chunk.originalName with
  | some chunks =>
      if chunks.length = chunk.total then
        { storage := storage, merges := st.merges ++ [chunks] }
      else
        { storage := storage, merges := st.merges }
  | none => { storage := storage, merges := st.merges }

/-- Deliver a sequence of chunks through onMessageCreate, one per clock
tick. -/
def deliverAll (st : ReceiveState) (chunks : List StoredFileChunk) (now : Nat) :
    ReceiveState :=
  match chunks with
  | [] => st
  | c :: rest => deliverAll (onMessageCreate st c now) rest (now + 1)

/-- A sequence of addChunk insertions (chunk, receive time) applied in
order. -/
def runInserts (s : ChunkStorage) (ops : List (StoredFileChunk × Nat)) :
    ChunkStorage :=
  ops.foldl (fun t p => addChunk t p.1 p.2) s

/-- The upload loop of handleFileSplit (src/FileSplitter.tsx lines 181-213):
chunks are uploaded one at a time in index order, each awaited; sendOk i tells
whether the upload of chunk i succeeds.  Starting at index i with the given
number of remaining iterations, return the indices uploaded successfully and,
if an upload failed, the failing index; a failure aborts the remaining
iterations (the exception propagates to the surrounding catch). -/
def sendFrom (sendOk : Nat → Bool) : Nat → Nat → List Nat × Option Nat
  | _, 0 => ([], none)
  | i, fuel + 1 =>
      if sendOk i then
        let r := sendFrom sendOk (i + 1) fuel
        (i :: r.1, r.2)
      else
        ([], some i)

/-- The whole upload loop: indices 0 to total - 1. -/
def runSendLoop (sendOk : Nat → Bool) (total : Nat) : List Nat × Option Nat :=
  sendFrom sendOk 0 total

/-- C2: handleFileSplit produces exactly ceil(N / chunkSize) chunks, and chunk
i carries index i, the shared metadata, and the byte range from i*chunkSize to
min((i+1)*chunkSize, N), for every object length N > 0 and positive
chunkSize. -/
theorem splitChunks_count_and_ranges (file : InputFile) (cs now : Nat)
    (hn : 0 < file.bytes.length) (hcs : 0 < cs) :
    (splitChunks file cs now).length = (file.bytes.length + cs - 1) / cs ∧
    ∀ i, (hi : i < (splitChunks file cs now).length) →
      (splitChunks file cs now)[i] =
        { index := i
          total := totalChunks file.bytes.length cs
          originalName := file.name
          originalSize := file.bytes.length
          timestamp := now
          data := sliceBytes file.bytes (i * cs)
            (min ((i + 1) * cs) file.bytes.length) } := by
  constructor
  · simp [splitChunks, totalChunks]
  · intro i hi
    simp only [splitChunks, List.getElem_map, List.getElem_range, makeChunk,
      Nat.succ_mul]

/-- Witness for splitChunks_count_and_ranges: the example transfer of the
design, a 25-byte object with chunkSize 10, yields 3 chunks of sizes 10, 10
and 5. -/
theorem splitChunks_count_and_ranges_witness :
    (splitChunks { name := "f", bytes := List.range 25 } 10 0).length = 3 ∧
    (splitChunks { name := "f", bytes := List.range 25 } 10 0).map
        (fun c => (c.index, c.data.length)) = [(0, 10), (1, 10), (2, 5)] := by
  have h := splitChunks_count_and_ranges { name := "f", bytes := List.range 25 }
    10 0 (by decide) (by decide)
  exact ⟨by simpa using h.1, by decide⟩

/-- C3: inserting a chunk whose index is already stored for its key is a
no-op: the entry keeps the same chunks (same count) and the same lastUpdated,
and the whole storage is unchanged at every key. -/
theorem addChunk_duplicate_noop (s : ChunkStorage) (c : StoredFileChunk)
    (now : Nat) (e : AssemblyEntry) (hk : s c.originalName = some e)
    (hdup : e.chunks.any (fun d => d.index == c.index) = true) :
    (addChunk s c now) c.originalName = some e ∧
    ∀ k, (addChunk s c now) k = s k := by
  have hmain : ∀ k, (addChunk s c now) k = s k := by
    intro k
    unfold addChunk
    by_cases hkey : k = c.originalName
    · simp [hkey, hk, hdup]
    · simp [hkey]
  exact ⟨(hmain _).trans hk, hmain⟩

/-- The concrete chunk used in the addChunk_duplicate_noop witness. -/
def dupChunk : StoredFileChunk :=
  { index := 0, total := 2, originalName := "d", originalSize := 3,
    timestamp := 0, data := [1, 2] }

/-- A concrete one-entry cache already holding dupChunk. -/
def dupStore : ChunkStorage :=
  fun k =>
    if k = "d" then some { chunks := [dupChunk], lastUpdated := 4 } else none

/-- Witness for addChunk_duplicate_noop: redelivering dupChunk at time 9
leaves the cache exactly as it was, lastUpdated 4 included. -/
theorem addChunk_duplicate_noop_witness :
    (addChunk dupStore dupChunk 9) "d" =
      some { chunks := [dupChunk], lastUpdated := 4 } ∧
    ∀ k, (addChunk dupStore dupChunk 9) k = dupStore k :=
  addChunk_duplicate_noop dupStore dupChunk 9
    { chunks := [dupChunk], lastUpdated := 4 } (by decide) (by decide)

/-- C8: the eviction sweep removes every entry whose age exceeds the expiry
window, and the removed key is absent from subsequent lookups: getChunks
yields nothing and isComplete is false for every total. -/
theorem cleanOldChunks_evicts_expired (s : ChunkStorage) (now : Nat)
    (k : String) (e : AssemblyEntry) (hk : s k = some e)
    (hold : now - e.lastUpdated > CHUNK_TIMEOUT) :
    cleanOldChunks s now k = none ∧
    getChunks (cleanOldChunks s now) k = none ∧
    ∀ t, isComplete (cleanOldChunks s now) k t = false := by
  have h1 : cleanOldChunks s now k = none := by
    simp [cleanOldChunks, hk, hold]
  refine ⟨h1, ?_, ?_⟩
  · simp [getChunks, h1]
  · intro t
    simp [isComplete, getChunks, h1]

/-- A concrete cache with one entry last updated at time 0. -/
def staleStore : ChunkStorage :=
  fun k => if k = "e" then some { chunks := [], lastUpdated := 0 } else none

/-- Witness for cleanOldChunks_evicts_expired: a sweep at time 300001 evicts
the entry aged 300001 > CHUNK_TIMEOUT. -/
theorem cleanOldChunks_evicts_expired_witness :
    cleanOldChunks staleStore 300001 "e" = none ∧
    getChunks (cleanOldChunks staleStore 300001) "e" = none ∧
    ∀ t, isComplete (cleanOldChunks staleStore 300001) "e" t = false :=
  cleanOldChunks_evicts_expired staleStore 300001 "e"
    { chunks := [], lastUpdated := 0 } (by decide) (by decide)

/-- C10: the eviction sweep never mutates a surviving entry: an entry whose
age is within the expiry window is kept with the same chunks and the same
lastUpdated. -/
theorem cleanOldChunks_keeps_fresh (s : ChunkStorage) (now : Nat) (k : String)
    (e : AssemblyEntry) (hk : s k = some e)
    (hfresh : ¬ now - e.lastUpdated > CHUNK_TIMEOUT) :
    cleanOldChunks s now k = some e := by
  simp [cleanOldChunks, hk, hfresh]

/-- Witness for cleanOldChunks_keeps_fresh: a sweep at time 300000 keeps the
entry aged exactly CHUNK_TIMEOUT, unchanged. -/
theorem cleanOldChunks_keeps_fresh_witness :
    cleanOldChunks staleStore 300000 "e" =
      some { chunks := [], lastUpdated := 0 } :=
  cleanOldChunks_keeps_fresh staleStore 300000 "e"
    { chunks := [], lastUpdated := 0 } (by decide) (by decide)

/-- The chunk already stored in the conflict counterexample: total 2. -/
def confStored : StoredFileChunk :=
  { index := 0, total := 2, originalName := "c", originalSize := 20,
    timestamp := 0, data := [1] }

/-- A cache holding confStored under key c. -/
def confStore : ChunkStorage :=
  fun k =>
    if k = "c" then some { chunks := [confStored], lastUpdated := 0 } else none

/-- A conflicting chunk for the same key: total 3 differs from the stored
total 2, and its index 5 is not below its own total 3. -/
def confBad : StoredFileChunk :=
  { index := 5, total := 3, originalName := "c", originalSize := 20,
    timestamp := 1, data := [2] }

/-- Counterexample to C4: addChunk performs no total-conflict and no index
range check.  Inserting confBad (total 3 against stored total 2, index 5 not
below total 3) is not rejected: the entry changes, the conflicting chunk is
stored, and lastUpdated is refreshed. -/
theorem addChunk_conflict_counterexample :
    (addChunk confStore confBad 7) "c" ≠ confStore "c" ∧
    (addChunk confStore confBad 7) "c" =
      some { chunks := [confStored, confBad], lastUpdated := 7 } := by
  decide

/-- C4 amended: addChunk rejects nothing.  For every entry and every chunk
for its key whose total conflicts with a stored total or whose index is not
below its own total, the chunk is nevertheless appended to the entry (with
lastUpdated refreshed) whenever its index is not already stored; only a
duplicate index is ignored. -/
theorem addChunk_conflict_still_stored (s : ChunkStorage)
    (c : StoredFileChunk) (now : Nat) (e : AssemblyEntry)
    (hk : s c.originalName = some e)
    (hnew : e.chunks.any (fun d => d.index == c.index) = false)
    (hconflict : (∃ d ∈ e.chunks, d.total ≠ c.total) ∨ c.total ≤ c.index) :
    (addChunk s c now) c.originalName =
      some { chunks := e.chunks ++ [c], lastUpdated := now } := by
  unfold addChunk
  simp [hk, hnew]

/-- Witness for addChunk_conflict_still_stored at the concrete conflicting
insertion of confBad. -/
theorem addChunk_conflict_still_stored_witness :
    (addChunk confStore confBad 7) "c" =
      some { chunks := [confStored, confBad], lastUpdated := 7 } :=
  addChunk_conflict_still_stored confStore confBad 7
    { chunks := [confStored], lastUpdated := 0 } (by decide) (by decide)
    (by decide)

/-- First chunk of the size-bound counterexample: index 0, total 1. -/
def sizeA : StoredFileChunk :=
  { index := 0, total := 1, originalName := "g", originalSize := 2,
    timestamp := 0, data := [0] }

/-- Second chunk of the size-bound counterexample: index 1, same total 1. -/
def sizeB : StoredFileChunk :=
  { index := 1, total := 1, originalName := "g", originalSize := 2,
    timestamp := 0, data := [1] }

/-- Counterexample to C5: the entry mapping size is not bounded by the total
recorded in its chunks.  After inserting sizeA and sizeB (both carrying
total 1) the entry for key g stores 2 chunks while every stored chunk records
total 1. -/
theorem entry_size_exceeds_total_counterexample :
    (addChunk (addChunk emptyStorage sizeA 0) sizeB 1) "g" =
      some { chunks := [sizeA, sizeB], lastUpdated := 1 } ∧
    sizeA.total = 1 ∧ sizeB.total = 1 ∧
    [sizeA, sizeB].length = 2 := by
  decide

/-- C5 amended: the invariant addChunk actually maintains is index
uniqueness, not a total bound: after any sequence of insertions into the
empty storage, every entry's stored chunks carry pairwise distinct indices
(so the mapping size equals the number of distinct indices inserted for that
key, which the counterexample shows can exceed the recorded total). -/
theorem runInserts_index_unique (ops : List (StoredFileChunk × Nat))
    (k : String) (e : AssemblyEntry)
    (he : runInserts emptyStorage ops k = some e) :
    (e.chunks.map (fun c => c.index)).Nodup := by
  suffices h : ∀ s : ChunkStorage,
      (∀ k0 e0, s k0 = some e0 → (e0.chunks.map (fun c => c.index)).Nodup) →
      ∀ k0 e0, runInserts s ops k0 = some e0 →
        (e0.chunks.map (fun c => c.index)).Nodup by
    refine h emptyStorage ?_ k e he
    intro k0 e0 h0
    simp [emptyStorage] at h0
  clear he
  induction ops with
  | nil =>
      intro s hs k0 e0 h0
      exact hs k0 e0 h0
  | cons p rest ih =>
      intro s hs k0 e0 h0
      have hstep : ∀ k1 e1, addChunk s p.1 p.2 k1 = some e1 →
          (e1.chunks.map (fun c => c.index)).Nodup := by
        intro k1 e1 h1
        unfold addChunk at h1
        by_cases hkey : k1 = p.1.originalName
        · rw [if_pos hkey] at h1
          have hbase : (((s p.1.originalName).getD
              { chunks := [], lastUpdated := p.2 }).chunks.map
                (fun c => c.index)).Nodup := by
            cases hcase : s p.1.originalName with
            | none => simp [hcase]
            | some e2 => simpa [hcase] using hs _ e2 hcase
          by_cases hdup : (((s p.1.originalName).getD
              { chunks := [], lastUpdated := p.2 }).chunks.any
                (fun c => c.index == p.1.index)) = true
          · rw [if_pos hdup] at h1
            cases h1
            exact hbase
          · rw [if_neg hdup] at h1
            cases h1
            have hni : p.1.index ∉ (((s p.1.originalName).getD
                { chunks := [], lastUpdated := p.2 }).chunks.map
                  (fun c => c.index)) := by
              intro hmem
              obtain ⟨d, hd, hdix⟩ := List.mem_map.mp hmem
              exact hdup (List.any_eq_true.mpr ⟨d, hd, by simp [hdix]⟩)
            simp only [List.map_append, List.map_cons, List.map_nil,
              List.nodup_append]
            refine ⟨hbase, by simp, ?_⟩
            intro a ha hb
            simp at hb
            subst hb
            exact hni ha
        · rw [if_neg hkey] at h1
          exact hs k1 e1 h1
      have hrest : runInserts (addChunk s p.1 p.2) rest k0 = some e0 := by
        simpa [runInserts] using h0
      exact ih (addChunk s p.1 p.2) hstep k0 e0 hrest

/-- Witness for runInserts_index_unique: after the counterexample insertions
including a duplicate redelivery of sizeA, the entry for key g holds the
pairwise distinct indices 0 and 1. -/
theorem runInserts_index_unique_witness :
    ([sizeA, sizeB].map (fun c => c.index)).Nodup :=
  runInserts_index_unique [(sizeA, 0), (sizeA, 0), (sizeB, 1)] "g"
    { chunks := [sizeA, sizeB], lastUpdated := 1 } (by decide)

/-- The single chunk of the merge counterexample: it announces total 2 but is
merged alone. -/
def loneChunk : StoredFileChunk :=
  { index := 0, total := 2, originalName := "h", originalSize := 9,
    timestamp := 0, data := [3, 4] }

/-- Counterexample to C7: handleFileMerge performs no completeness check.
Merging a single record that announces total 2 does not fail with any
incomplete-set error: it produces a reconstructed object from the one
record. -/
theorem merge_incomplete_set_counterexample :
    loneChunk.total = 2 ∧
    handleFileMerge [loneChunk] = some { name := "h", bytes := [3, 4] } := by
  refine ⟨rfl, ?_⟩
  unfold handleFileMerge
  rw [List.mergeSort_singleton]
  decide

/-- C7 amended: handleFileMerge verifies nothing about the record set: it
sorts the given records by index and concatenates their payloads, producing a
reconstructed object for every nonempty input, whether or not the record
count equals total and whether or not the indices are contiguous. -/
theorem merge_succeeds_unconditionally (chunks : List StoredFileChunk)
    (h : chunks ≠ []) :
    (handleFileMerge chunks).isSome = true := by
  unfold handleFileMerge
  cases hs : chunks.mergeSort chunkLe with
  | nil =>
      have hperm := List.mergeSort_perm chunks chunkLe
      rw [hs] at hperm
      exact absurd (hperm.symm.eq_nil) h
  | cons c rest => rfl

/-- Witness for merge_succeeds_unconditionally at the concrete incomplete
set. -/
theorem merge_succeeds_unconditionally_witness :
    (handleFileMerge [loneChunk]).isSome = true :=
  merge_succeeds_unconditionally [loneChunk] (by decide)

/-- Helper for the send path: starting at index start with fuel remaining
iterations, if every upload before offset d succeeds and the upload at offset
d < fuel fails, the loop sends exactly the indices start..start+d-1 and stops
reporting start+d. -/
lemma sendFrom_first_failure (sendOk : Nat → Bool) :
    ∀ (d start fuel : Nat), d < fuel →
      (∀ j, j < d → sendOk (start + j) = true) →
      sendOk (start + d) = false →
      sendFrom sendOk start fuel =
        ((List.range d).map (fun j => start + j), some (start + d)) := by
  intro d
  induction d with
  | zero =>
      intro start fuel hfuel hok hfail
      obtain ⟨f, rfl⟩ : ∃ f, fuel = f + 1 := ⟨fuel - 1, by omega⟩
      simp [sendFrom, show sendOk start = false by simpa using hfail]
  | succ d ih =>
      intro start fuel hfuel hok hfail
      obtain ⟨f, rfl⟩ : ∃ f, fuel = f + 1 := ⟨fuel - 1, by omega⟩
      have h0 : sendOk start = true := by simpa using hok 0 (by omega)
      have hrest := ih (start + 1) f (by omega)
        (fun j hj => by
          have hj1 := hok (j + 1) (by omega)
          have heq : start + (j + 1) = start + 1 + j := by omega
          rw [heq] at hj1
          exact hj1)
        (by
          have heq : start + 1 + d = start + (d + 1) := by omega
          rw [heq]
          exact hfail)
      have hlist : (List.range (d + 1)).map (fun j => start + j) =
          start :: (List.range d).map (fun j => start + 1 + j) := by
        rw [List.range_succ_eq_map, List.map_cons, List.map_map]
        simp only [Function.comp_def, Nat.add_zero]
        congr 1
        exact List.map_congr_left (fun a _ => by omega)
      have harith : start + 1 + d = start + (d + 1) := by omega
      simp only [sendFrom, h0, if_true]
      rw [hrest, hlist, harith]

/-- C9: a failure of the upload of chunk i aborts the remainder of the send
sequence: exactly the chunks 0..i-1 already sent remain sent, no chunk with
index above i is sent, chunk i is not retried, and the failing index i is
reported to the caller. -/
theorem send_failure_aborts_remaining (sendOk : Nat → Bool) (total i : Nat)
    (hi : i < total) (hok : ∀ j, j < i → sendOk j = true)
    (hfail : sendOk i = false) :
    runSendLoop sendOk total = (List.range i, some i) := by
  have h := sendFrom_first_failure sendOk i 0 total hi
    (fun j hj => by simpa using hok j hj) (by simpa using hfail)
  simpa [runSendLoop] using h

/-- Witness for send_failure_aborts_remaining: with 4 chunks and uploads
succeeding only for indices below 2, the loop sends chunks 0 and 1, then
aborts reporting index 2. -/
theorem send_failure_aborts_remaining_witness :
    runSendLoop (fun j => decide (j < 2)) 4 = (List.range 2, some 2) :=
  send_failure_aborts_remaining (fun j => decide (j < 2)) 4 2 (by decide)
    (fun j hj => decide_eq_true hj) (by decide)

/-- Proof helper: the byte list cut into take-cs pieces, with an iteration
budget. -/
def chunkifyAux (cs : Nat) : Nat → List Nat → List (List Nat)
  | 0, _ => []
  | t + 1, bytes => bytes.take cs :: chunkifyAux cs t (bytes.drop cs)

/-- Taking up to the list length is the same as plain take. -/
lemma take_min_length (l : List Nat) (cs : Nat) :
    l.take (min cs l.length) = l.take cs := by
  rcases Nat.le_total cs l.length with h | h
  · rw [Nat.min_eq_left h]
  · rw [Nat.min_eq_right h, List.take_length, List.take_of_length_le h]

/-- The payload slice of split iteration i is the take-cs piece of the bytes
remaining after i*cs. -/
lemma slice_eq_take_drop (bytes : List Nat) (cs i : Nat) :
    sliceBytes bytes (i * cs) (min (i * cs + cs) bytes.length) =
      (bytes.drop (i * cs)).take cs := by
  unfold sliceBytes
  have h1 : min (i * cs + cs) bytes.length - i * cs =
      min cs (bytes.length - i * cs) := by omega
  rw [h1, ← List.length_drop (i * cs) bytes, take_min_length]

/-- The successive take-cs slices of the split loop are chunkifyAux. -/
lemma range_map_take_drop (cs : Nat) :
    ∀ (t : Nat) (bytes : List Nat),
      (List.range t).map (fun i => (bytes.drop (i * cs)).take cs) =
        chunkifyAux cs t bytes := by
  intro t
  induction t with
  | zero => intro bytes; simp [chunkifyAux]
  | succ t ih =>
      intro bytes
      rw [List.range_succ_eq_map, List.map_cons, List.map_map]
      have hstep : chunkifyAux cs (t + 1) bytes =
          bytes.take cs :: chunkifyAux cs t (bytes.drop cs) := rfl
      rw [hstep]
      have hhead : (bytes.drop (0 * cs)).take cs = bytes.take cs := by
        rw [Nat.zero_mul, List.drop_zero]
      rw [hhead]
      congr 1
      rw [← ih (bytes.drop cs)]
      apply List.map_congr_left
      intro a _
      simp only [Function.comp_def]
      rw [List.drop_drop, Nat.succ_mul, Nat.add_comm]

/-- Concatenating the chunkifyAux pieces restores the bytes, provided the
budget covers the whole list. -/
lemma chunkifyAux_flatten (cs : Nat) (hcs : 0 < cs) :
    ∀ (t : Nat) (bytes : List Nat), bytes.length ≤ t * cs →
      (chunkifyAux cs t bytes).flatten = bytes := by
  intro t
  induction t with
  | zero =>
      intro bytes hlen
      have hnil : bytes = [] := List.length_eq_zero.mp (by simpa using hlen)
      simp [hnil, chunkifyAux]
  | succ t ih =>
      intro bytes hlen
      have hstep : chunkifyAux cs (t + 1) bytes =
          bytes.take cs :: chunkifyAux cs t (bytes.drop cs) := rfl
      rw [hstep, List.flatten_cons]
      have hlen2 : (bytes.drop cs).length ≤ t * cs := by
        rw [List.length_drop]
        rw [Nat.succ_mul] at hlen
        omega
      rw [ih (bytes.drop cs) hlen2]
      exact List.take_append_drop cs bytes

/-- The chunk count times the chunk size covers the object. -/
lemma le_totalChunks_mul (n cs : Nat) (h : 0 < cs) :
    n ≤ totalChunks n cs * cs := by
  unfold totalChunks
  have key : (n + cs - 1) / cs < (n + cs - 1) / cs + 1 := Nat.lt_succ_self _
  have key2 := (Nat.div_lt_iff_lt_mul h).mp key
  have h2 : ((n + cs - 1) / cs + 1) * cs = ((n + cs - 1) / cs) * cs + cs :=
    Nat.succ_mul _ _
  rw [h2] at key2
  generalize ((n + cs - 1) / cs) * cs = m at key2 ⊢
  omega

/-- A nonempty object yields at least one chunk. -/
lemma totalChunks_pos (n cs : Nat) (hn : 0 < n) (hcs : 0 < cs) :
    0 < totalChunks n cs := by
  unfold totalChunks
  apply (Nat.le_div_iff_mul_le hcs).mpr
  omega

/-- The result of mergeSort under the merge comparator is sorted by chunk
index. -/
lemma mergeSort_pairwise_index (l : List StoredFileChunk) :
    (l.mergeSort chunkLe).Pairwise (fun a b => a.index ≤ b.index) := by
  have htrans : ∀ (a b c : StoredFileChunk), chunkLe a b = true →
      chunkLe b c = true → chunkLe a c = true := by
    intro a b c hab hbc
    simp only [chunkLe, decide_eq_true_eq] at hab hbc ⊢
    omega
  have htotal : ∀ (a b : StoredFileChunk),
      (chunkLe a b || chunkLe b a) = true := by
    intro a b
    simp only [chunkLe, Bool.or_eq_true, decide_eq_true_eq]
    omega
  have h := List.sorted_mergeSort htrans htotal l
  exact h.imp (fun hab => by
    simpa only [chunkLe, decide_eq_true_eq] using hab)

/-- A chunk list that is a permutation of an index-faithful enumeration over
range T, and is sorted by index, is that enumeration. -/
lemma sorted_perm_eq_range_map (T : Nat) (f : Nat → StoredFileChunk)
    (hf : ∀ i, (f i).index = i) (l : List StoredFileChunk)
    (hperm : l.Perm ((List.range T).map f))
    (hsorted : l.Pairwise (fun a b => a.index ≤ b.index)) :
    l = (List.range T).map f := by
  have hidxperm : (l.map (fun c => c.index)).Perm (List.range T) := by
    have h1 := hperm.map (fun c => c.index)
    rw [List.map_map] at h1
    have h2 : (List.range T).map ((fun c => c.index) ∘ f) = List.range T := by
      have hpt : ∀ a ∈ List.range T, ((fun c => c.index) ∘ f) a = id a := by
        intro a _
        simp only [Function.comp_def, hf, id]
      rw [List.map_congr_left hpt, List.map_id]
    rwa [h2] at h1
  have hidxsorted : (l.map (fun c => c.index)).Pairwise (· ≤ ·) :=
    List.pairwise_map.mpr hsorted
  have hrangesorted : (List.range T).Pairwise (fun a b : Nat => a ≤ b) :=
    (List.pairwise_lt_range T).imp (fun h => Nat.le_of_lt h)
  have hidx : l.map (fun c => c.index) = List.range T :=
    List.eq_of_perm_of_sorted hidxperm hidxsorted hrangesorted
  have hmem : ∀ x ∈ l, (fun x => f x.index) x = id x := by
    intro x hx
    have hx2 : x ∈ (List.range T).map f := hperm.mem_iff.mp hx
    obtain ⟨i, _, rfl⟩ := List.mem_map.mp hx2
    simp only [hf, id]
  calc l = l.map (fun x => f x.index) := by
        rw [List.map_congr_left hmem, List.map_id]
    _ = (l.map (fun c => c.index)).map f := by
        rw [List.map_map]
        rfl
    _ = (List.range T).map f := by rw [hidx]

/-- handleFileMerge computed from a cons form of its sorted chunk list. -/
lemma handleFileMerge_eq_of_sorted (l : List StoredFileChunk)
    (c : StoredFileChunk) (rest : List StoredFileChunk)
    (h : l.mergeSort chunkLe = c :: rest) :
    handleFileMerge l =
      some { name := c.originalName
             bytes := ((c :: rest).map (fun d => d.data)).flatten } := by
  unfold handleFileMerge
  rw [h]

/-- C1: round trip.  Splitting a nonempty object with any positive chunkSize
and merging any permutation of the produced chunks reproduces the original
byte sequence exactly, under the original name, and the reconstructed size
equals the original size. -/
theorem split_merge_roundtrip (file : InputFile) (cs now : Nat)
    (hn : 0 < file.bytes.length) (hcs : 0 < cs)
    (delivered : List StoredFileChunk)
    (hperm : delivered.Perm (splitChunks file cs now)) :
    handleFileMerge delivered =
      some { name := file.name, bytes := file.bytes } ∧
    ∀ m, handleFileMerge delivered = some m →
      m.bytes.length = file.bytes.length := by
  have hfidx : ∀ i, (makeChunk file cs i now).index = i := fun i => rfl
  have hperm2 : (delivered.mergeSort chunkLe).Perm
      ((List.range (totalChunks file.bytes.length cs)).map
        (fun i => makeChunk file cs i now)) :=
    (List.mergeSort_perm delivered chunkLe).trans hperm
  have hsorted := mergeSort_pairwise_index delivered
  have hsort_eq : delivered.mergeSort chunkLe =
      (List.range (totalChunks file.bytes.length cs)).map
        (fun i => makeChunk file cs i now) :=
    sorted_perm_eq_range_map _ _ hfidx _ hperm2 hsorted
  obtain ⟨T, hT⟩ : ∃ T, totalChunks file.bytes.length cs = T + 1 :=
    ⟨totalChunks file.bytes.length cs - 1,
      by have := totalChunks_pos file.bytes.length cs hn hcs; omega⟩
  have hdecomp : (List.range (T + 1)).map (fun i => makeChunk file cs i now) =
      makeChunk file cs 0 now ::
        ((List.range T).map Nat.succ).map (fun i => makeChunk file cs i now) := by
    rw [List.range_succ_eq_map, List.map_cons]
  have hsort_cons : delivered.mergeSort chunkLe =
      makeChunk file cs 0 now ::
        ((List.range T).map Nat.succ).map (fun i => makeChunk file cs i now) := by
    rw [hsort_eq, hT, hdecomp]
  have hmerge := handleFileMerge_eq_of_sorted delivered _ _ hsort_cons
  have hbytes : ((makeChunk file cs 0 now ::
      ((List.range T).map Nat.succ).map (fun i => makeChunk file cs i now)).map
        (fun d => d.data)).flatten = file.bytes := by
    rw [← hdecomp, ← hT, List.map_map]
    have hdata : List.map
        ((fun d => d.data) ∘ (fun i => makeChunk file cs i now))
        (List.range (totalChunks file.bytes.length cs)) =
        List.map (fun i => (file.bytes.drop (i * cs)).take cs)
          (List.range (totalChunks file.bytes.length cs)) :=
      List.map_congr_left (fun a _ => slice_eq_take_drop file.bytes cs a)
    rw [hdata, range_map_take_drop cs _ file.bytes]
    exact chunkifyAux_flatten cs hcs _ file.bytes
      (le_totalChunks_mul file.bytes.length cs hcs)
  rw [hmerge, hbytes]
  constructor
  · rfl
  · intro m hm
    cases hm
    rfl

/-- Witness for split_merge_roundtrip: the design's example, a 25-byte object
split with chunkSize 10 and delivered in the order 2, 0, 1, merges back to
the original 25 bytes. -/
theorem split_merge_roundtrip_witness :
    handleFileMerge
        [makeChunk { name := "f", bytes := List.range 25 } 10 2 0,
         makeChunk { name := "f", bytes := List.range 25 } 10 0 0,
         makeChunk { name := "f", bytes := List.range 25 } 10 1 0] =
      some { name := "f", bytes := List.range 25 } ∧
    ∀ m, handleFileMerge
        [makeChunk { name := "f", bytes := List.range 25 } 10 2 0,
         makeChunk { name := "f", bytes := List.range 25 } 10 0 0,
         makeChunk { name := "f", bytes := List.range 25 } 10 1 0] = some m →
      m.bytes.length = (List.range 25).length :=
  split_merge_roundtrip { name := "f", bytes := List.range 25 } 10 0
    (by decide) (by decide) _ (by decide)

/-- The single chunk of the completion counterexample: a one-chunk
transfer. -/
def soloChunk : StoredFileChunk :=
  { index := 0, total := 1, originalName := "m", originalSize := 1,
    timestamp := 0, data := [9] }

/-- Counterexample to C6: after the completing delivery (merge triggered) the
cache entry is NOT removed, and the same chunk redelivered afterwards finds
the existing entry (no fresh entry is created) and even triggers a second
merge. -/
theorem completion_entry_not_removed_counterexample :
    (onMessageCreate initialReceiveState soloChunk 0).merges.length = 1 ∧
    (onMessageCreate initialReceiveState soloChunk 0).storage "m" =
      some { chunks := [soloChunk], lastUpdated := 0 } ∧
    (onMessageCreate (onMessageCreate initialReceiveState soloChunk 0)
        soloChunk 1).storage "m" =
      some { chunks := [soloChunk], lastUpdated := 0 } ∧
    (onMessageCreate (onMessageCreate initialReceiveState soloChunk 0)
        soloChunk 1).merges.length = 2 := by
  decide

/-- deliverAll over an append splits into two passes. -/
lemma deliverAll_append (st : ReceiveState) (l1 l2 : List StoredFileChunk)
    (now : Nat) :
    deliverAll st (l1 ++ l2) now =
      deliverAll (deliverAll st l1 now) l2 (now + l1.length) := by
  induction l1 generalizing st now with
  | nil => simp [deliverAll]
  | cons c rest ih =>
      rw [List.cons_append]
      rw [show deliverAll st (c :: (rest ++ l2)) now =
        deliverAll (onMessageCreate st c now) (rest ++ l2) (now + 1) from rfl]
      rw [ih]
      rw [show deliverAll st (c :: rest) now =
        deliverAll (onMessageCreate st c now) rest (now + 1) from rfl]
      have hl : now + (c :: rest).length = now + 1 + rest.length := by
        simp [List.length_cons]
        omega
      rw [hl]

/-- onMessageCreate written in terms of addChunk and the completeness
test. -/
lemma onMessageCreate_eq (st : ReceiveState) (chunk : StoredFileChunk)
    (now : Nat) (cs : List StoredFileChunk)
    (hc : getChunks (addChunk st.storage chunk now) chunk.originalName
      = some cs) :
    onMessageCreate st chunk now =
      { storage := addChunk st.storage chunk now,
        merges := if cs.length = chunk.total then st.merges ++ [cs]
                  else st.merges } := by
  have hz : onMessageCreate st chunk now =
      match getChunks (addChunk st.storage chunk now) chunk.originalName with
      | some chunks =>
          if chunks.length = chunk.total then
            { storage := addChunk st.storage chunk now,
              merges := st.merges ++ [chunks] }
          else
            { storage := addChunk st.storage chunk now,
              merges := st.merges }
      | none =>
          { storage := addChunk st.storage chunk now,
            merges := st.merges } := rfl
  rw [hz, hc]
  show (if cs.length = chunk.total then
      { storage := addChunk st.storage chunk now, merges := st.merges ++ [cs] }
    else
      ({ storage := addChunk st.storage chunk now,
         merges := st.merges } : ReceiveState)) = _
  by_cases hl : cs.length = chunk.total
  · rw [if_pos hl, if_pos hl]
  · rw [if_neg hl, if_neg hl]

/-- Delivering the first j chunks of an index-faithful family of T chunks
for one key builds up exactly the entry of those j chunks (lastUpdated at
the last delivery time), touches no other key, and triggers no merge before
the T-th delivery and exactly one at it. -/
lemma deliver_prefix_state (name : String) (T : Nat) (hT : 0 < T)
    (g : Nat → StoredFileChunk) (hidx : ∀ i, (g i).index = i)
    (htot : ∀ i, (g i).total = T) (hname : ∀ i, (g i).originalName = name)
    (now : Nat) :
    ∀ j, j ≤ T →
      (∀ k, k ≠ name →
        (deliverAll initialReceiveState ((List.range j).map g) now).storage k
          = none) ∧
      ((deliverAll initialReceiveState ((List.range j).map g) now).storage
          name =
        if j = 0 then none
        else some { chunks := (List.range j).map g,
                    lastUpdated := now + j - 1 }) ∧
      ((deliverAll initialReceiveState ((List.range j).map g) now).merges =
        if j = T then [(List.range T).map g] else []) := by
  intro j
  induction j with
  | zero =>
      intro _
      have h0 : ¬(0 = T) := by omega
      refine ⟨?_, ?_, ?_⟩
      · intro k _
        simp [deliverAll, initialReceiveState, emptyStorage]
      · simp [deliverAll, initialReceiveState, emptyStorage]
      · simp [deliverAll, initialReceiveState, h0]
  | succ j ih =>
      intro hj
      obtain ⟨hother, hmain, hmerges⟩ := ih (by omega)
      have hsplit : (List.range (j + 1)).map g =
          ((List.range j).map g) ++ [g j] := by
        rw [List.range_succ, List.map_append, List.map_cons, List.map_nil]
      have hanyfalse : (((List.range j).map g).any
          (fun c => c.index == (g j).index)) = false := by
        rw [List.any_eq_false]
        intro x hx
        obtain ⟨i, hi, rfl⟩ := List.mem_map.mp hx
        have hij : i < j := List.mem_range.mp hi
        simp [hidx, Nat.ne_of_lt hij]
      have hstep : deliverAll initialReceiveState
          ((List.range (j + 1)).map g) now =
          onMessageCreate
            (deliverAll initialReceiveState ((List.range j).map g) now)
            (g j) (now + j) := by
        rw [hsplit, deliverAll_append]
        have hlen : ((List.range j).map g).length = j := by simp
        rw [hlen]
        rfl
      rw [hstep]
      set st := deliverAll initialReceiveState ((List.range j).map g) now
        with hst
      have hnewentry : ∀ k, addChunk st.storage (g j) (now + j) k =
          if k = name then
            some { chunks := (List.range (j + 1)).map g,
                   lastUpdated := now + j }
          else st.storage k := by
        intro k
        unfold addChunk
        rw [hname]
        by_cases hk : k = name
        · simp only [if_pos hk]
          by_cases hj0 : j = 0
          · subst hj0
            have hmain0 : st.storage name = none := by simpa using hmain
            rw [hmain0]
            simp [show List.range 1 = [0] from rfl]
          · have hmainj : st.storage name =
                some { chunks := (List.range j).map g,
                       lastUpdated := now + j - 1 } := by
              rw [hmain, if_neg hj0]
            rw [hmainj]
            simp only [Option.getD_some]
            simp [hanyfalse, hsplit]
        · simp only [if_neg hk]
      have hgetc : getChunks (addChunk st.storage (g j) (now + j))
          (g j).originalName = some ((List.range (j + 1)).map g) := by
        rw [hname]
        unfold getChunks
        rw [hnewentry name, if_pos rfl]
        rfl
      have hmerges0 : st.merges = [] := by
        rw [hmerges, if_neg (by omega : ¬ j = T)]
      rw [onMessageCreate_eq st (g j) (now + j) _ hgetc]
      have hlensucc : ((List.range (j + 1)).map g).length = j + 1 := by simp
      rw [hlensucc, htot]
      refine ⟨?_, ?_, ?_⟩
      · intro k hkname
        show addChunk st.storage (g j) (now + j) k = none
        rw [hnewentry k, if_neg hkname]
        exact hother k hkname
      · show addChunk st.storage (g j) (now + j) name = _
        have harr : now + (j + 1) - 1 = now + j := by omega
        rw [hnewentry name, if_pos rfl, if_neg (by omega : ¬ j + 1 = 0), harr]
      · show (if j + 1 = T then st.merges ++ [(List.range (j + 1)).map g]
            else st.merges) =
          if j + 1 = T then [(List.range T).map g] else []
        rw [hmerges0]
        by_cases hjt : j + 1 = T
        · rw [if_pos hjt, if_pos hjt, hjt]
          rfl
        · rw [if_neg hjt, if_neg hjt]

/-- C6 amended: delivering the chunks 0..T-1 of a transfer triggers the merge
exactly once, on the final delivery, with the full chunk set; but the cache
entry is NOT removed by completion: it remains, holding all T chunks, and a
chunk redelivered afterwards finds the existing entry (no fresh entry is
created), changes no storage, and triggers the merge again. -/
theorem completion_merges_once_entry_kept (name : String) (T : Nat)
    (hT : 0 < T) (g : Nat → StoredFileChunk) (hidx : ∀ i, (g i).index = i)
    (htot : ∀ i, (g i).total = T) (hname : ∀ i, (g i).originalName = name)
    (now : Nat) :
    (deliverAll initialReceiveState ((List.range T).map g) now).merges =
      [(List.range T).map g] ∧
    (deliverAll initialReceiveState ((List.range T).map g) now).storage name =
      some { chunks := (List.range T).map g, lastUpdated := now + T - 1 } ∧
    ∀ i, i < T → ∀ t,
      (∀ k, (onMessageCreate
          (deliverAll initialReceiveState ((List.range T).map g) now)
          (g i) t).storage k =
        (deliverAll initialReceiveState
          ((List.range T).map g) now).storage k) ∧
      (onMessageCreate
          (deliverAll initialReceiveState ((List.range T).map g) now)
          (g i) t).merges =
        [(List.range T).map g, (List.range T).map g] := by
  obtain ⟨hother, hmain, hmerges⟩ :=
    deliver_prefix_state name T hT g hidx htot hname now T (le_refl T)
  have hmain2 : (deliverAll initialReceiveState
      ((List.range T).map g) now).storage name =
      some { chunks := (List.range T).map g, lastUpdated := now + T - 1 } := by
    rw [hmain, if_neg (by omega : ¬ T = 0)]
  have hmerges2 : (deliverAll initialReceiveState
      ((List.range T).map g) now).merges = [(List.range T).map g] := by
    rw [hmerges, if_pos rfl]
  refine ⟨hmerges2, hmain2, ?_⟩
  intro i hiT t
  set st := deliverAll initialReceiveState ((List.range T).map g) now
    with hst
  have hanytrue : (((List.range T).map g).any
      (fun c => c.index == (g i).index)) = true := by
    rw [List.any_eq_true]
    exact ⟨g i, List.mem_map.mpr ⟨i, List.mem_range.mpr hiT, rfl⟩, by simp⟩
  have haddsame : ∀ k, addChunk st.storage (g i) t k = st.storage k := by
    intro k
    unfold addChunk
    rw [hname]
    by_cases hk : k = name
    · subst hk
      rw [if_pos rfl, hmain2]
      simp only [Option.getD_some]
      simp [hanytrue]
    · rw [if_neg hk]
  have hgetc2 : getChunks (addChunk st.storage (g i) t) (g i).originalName =
      some ((List.range T).map g) := by
    rw [hname]
    unfold getChunks
    rw [haddsame name, hmain2]
    rfl
  rw [onMessageCreate_eq st (g i) t _ hgetc2]
  constructor
  · intro k
    show addChunk st.storage (g i) t k = st.storage k
    exact haddsame k
  · show (if ((List.range T).map g).length = (g i).total then
        st.merges ++ [(List.range T).map g] else st.merges) =
      [(List.range T).map g, (List.range T).map g]
    rw [htot, hmerges2]
    rw [if_pos (by simp)]
    rfl

/-- The two-chunk family of the completion witness. -/
def wChunk (i : Nat) : StoredFileChunk :=
  { index := i, total := 2, originalName := "w", originalSize := 2,
    timestamp := 0, data := [i] }

/-- Witness for completion_merges_once_entry_kept: a concrete two-chunk
transfer delivered at times 5 and 6: one merge, entry kept, and any
redelivery leaves the storage as it is and merges again. -/
theorem completion_merges_once_entry_kept_witness :
    (deliverAll initialReceiveState ((List.range 2).map wChunk) 5).merges =
      [(List.range 2).map wChunk] ∧
    (deliverAll initialReceiveState
        ((List.range 2).map wChunk) 5).storage "w" =
      some { chunks := (List.range 2).map wChunk, lastUpdated := 5 + 2 - 1 } ∧
    ∀ i, i < 2 → ∀ t,
      (∀ k, (onMessageCreate
          (deliverAll initialReceiveState ((List.range 2).map wChunk) 5)
          (wChunk i) t).storage k =
        (deliverAll initialReceiveState
          ((List.range 2).map wChunk) 5).storage k) ∧
      (onMessageCreate
          (deliverAll initialReceiveState ((List.range 2).map wChunk) 5)
          (wChunk i) t).merges =
        [(List.range 2).map wChunk, (List.range 2).map wChunk] :=
  completion_merges_once_entry_kept "w" 2 (by decide) wChunk
    (fun i => rfl) (fun i => rfl) (fun i => rfl) 5

end FileSplitter
